import Mathlib

/-
Shallow embedding of `praw/models/reddit/mixins/editable.py`, the
inline-media reconciler (`EditableMixin._replace_richtext_links`) and the
surrounding `EditableMixin.edit` control flow.

Conventions of the embedding:
* Python dicts used as records become Lean structures whose fields are
  `Option`-valued when the source accesses them with `.get` (absent key
  yields `None`).
* Python exceptions become an explicit error component: functions that the
  source lets raise return, besides their result, an `Option RTError`.
  Because `_replace_richtext_links` mutates `richtext_json["document"]` in
  place and an exception aborts it midway, the embedding of the traversal
  returns the document state reached at the moment the exception is raised
  together with the error, mirroring the partially mutated list.
* Strings are Lean `String`s; the URL surgery
  `item["u"].split("https://")[1].split("?")[0]` and
  `re.split(r"[./]", url)` are embedded as executable functions on the
  underlying character lists with Python `str.split` / `re.split`
  semantics.
* `set.pop()` on the token/id intersection is nondeterministic in CPython;
  the embedding picks the first URL token (in token order) that is a key of
  the parsed media-type map.  No claim below depends on which element of
  the intersection is chosen.
-/

set_option autoImplicit false

namespace Praw

/-- Embedding of `MEDIA_TYPE_MAPPING` (editable.py lines 14-18), a dict from
platform media-kind names to canonical short kinds. -/
def MEDIA_TYPE_MAPPING : List (String × String) :=
  [("Image", "img"), ("RedditVideo", "video"), ("AnimatedImage", "gif")]

/-- Python dict lookup on an association list: first binding wins. -/
def dictGet {α : Type} (k : String) : List (String × α) → Option α
  | [] => none
  | (k₂, v) :: rest => if k₂ = k then some v else dictGet k rest

/-- A media descriptor from `self.media_metadata`; the reconciler reads only
its kind field `value["e"]`. -/
structure MediaDescr where
  e : String
deriving DecidableEq

/-- An inline item of a rich-text block (`item` in the source); fields are
the keys the source reads: tag `"e"`, url `"u"`, display text `"t"`.
They are `Option`-valued because the source reads them with `.get`
(and with `item["u"]` / `item["t"]`, which raise on a missing key). -/
structure InlineItem where
  e : Option String
  u : Option String
  t : Option String
deriving DecidableEq

/-- Content field `"c"` of a block element: either a literal string (an
inline leaf, e.g. a caption) or a list of inline items. -/
inductive BlockContent where
  | str (s : String)
  | items (l : List InlineItem)
deriving DecidableEq

/-- A top-level block element of `richtext_json["document"]`: kind tag
`"e"`, content `"c"`, and media id `"id"` (present on reconciled leaves). -/
structure BlockElement where
  e : Option String
  c : Option BlockContent
  id : Option String
deriving DecidableEq

/-- Exceptions the reconciler can raise, in the source's terms:
`unknownMediaKind` is the `KeyError` from `MEDIA_TYPE_MAPPING[value["e"]]`
(line 28); `schemaViolation` is the failed `assert` on line 33;
`typeError` is iterating `element.get("c")` when `"c"` is absent (line 38);
`keyError` is `item["u"]` / `item["t"]` on a missing key (lines 42, 54);
`indexError` is `split("https://")[1]` when the separator is absent
(line 42). -/
inductive RTError where
  | unknownMediaKind (kind : String)
  | schemaViolation
  | typeError
  | keyError
  | indexError
deriving DecidableEq

/-- The edited object, reduced to what `_replace_richtext_links` reads:
`media_metadata` is `none` when `hasattr(self, "media_metadata")` is false
(line 25), otherwise the id -> descriptor dict. -/
structure EditableObject where
  media_metadata : Option (List (String × MediaDescr))

/-- The character sequence of the separator `"https://"` used on line 42. -/
def httpsSep : List Char := ['h', 't', 't', 'p', 's', ':', '/', '/']

/-- Boolean prefix test on character lists. -/
def beginsWith : List Char → List Char → Bool
  | [], _ => true
  | _ :: _, [] => false
  | a :: ra, b :: rb => a == b && beginsWith ra rb

/-- Everything after the first occurrence of `"https://"`, or `none` when
the separator does not occur: together with `untilHttps` this embeds
Python's `u.split("https://")[1]`, which raises IndexError exactly when
the separator is absent. -/
def afterHttps : List Char → Option (List Char)
  | [] => none
  | c :: rest =>
    if beginsWith httpsSep (c :: rest) then some ((c :: rest).drop 8)
    else afterHttps rest

/-- Everything up to (excluding) the next occurrence of `"https://"`:
applied to `afterHttps`'s result it yields element 1 of Python's
`u.split("https://")`. -/
def untilHttps : List Char → List Char
  | [] => []
  | c :: rest =>
    if beginsWith httpsSep (c :: rest) then []
    else c :: untilHttps rest

/-- Boolean test for an occurrence of the substring `"https://"`. -/
def containsHttps : List Char → Bool
  | [] => false
  | c :: rest => beginsWith httpsSep (c :: rest) || containsHttps rest

/-- Embedding of `re.split(r"[./]", url)` (line 44): split on each `'.'` or
`'/'` character, keeping empty pieces, as `re.split` does. -/
def splitDotSlash : List Char → List (List Char)
  | [] => [[]]
  | c :: rest =>
    if c == '.' || c == '/' then [] :: splitDotSlash rest
    else
      match splitDotSlash rest with
      | [] => [[c]]
      | h :: t => (c :: h) :: t

/-- The token list of a link URL, embedding lines 42-44:
`url = item["u"].split("https://")[1].split("?")[0]` followed by
`re.split(r"[./]", url)`.  Returns `none` when `split("https://")[1]`
would raise IndexError (no `"https://"` in the URL). -/
def urlTokens (u : String) : Option (List String) :=
  match afterHttps u.data with
  | none => none
  | some rest =>
      some ((splitDotSlash ((untilHttps rest).takeWhile (fun c => c != '?'))).map String.mk)

/-- Embedding of lines 26-28: build `parsed_media_types` by translating each
descriptor's kind through `MEDIA_TYPE_MAPPING`; the dict subscript raises
(here: `unknownMediaKind`) at the first descriptor whose kind is not in
the table. -/
def buildParsed : List (String × MediaDescr) → Except RTError (List (String × String))
  | [] => .ok []
  | (mid, d) :: rest =>
    match dictGet d.e MEDIA_TYPE_MAPPING with
    | none => .error (.unknownMediaKind d.e)
    | some k =>
      match buildParsed rest with
      | .error er => .error er
      | .ok l => .ok ((mid, k) :: l)

/-- Embedding of lines 39-55 for one inline item: `.ok none` when the item
is not a link or no URL token is a known media id, `.ok (some el)` when the
containing block is to be replaced by `el`, `.error` when the source would
raise.  The replacement element is `{"e": kind, "id": mid}` plus a `"c"`
caption field when the display text differs from the URL. -/
def processItem (parsed : List (String × String)) (item : InlineItem) :
    Except RTError (Option BlockElement) :=
  if item.e = some "link" then
    match item.u with
    | none => .error .keyError
    | some u =>
      match urlTokens u with
      | none => .error .indexError
      | some toks =>
        match toks.find? (fun tok => (dictGet tok parsed).isSome) with
        | none => .ok none
        | some mid =>
          match dictGet mid parsed with
          | none => .error .keyError
          | some kind =>
            if item.t = item.u then .ok (some ⟨some kind, none, some mid⟩)
            else
              match item.t with
              | none => .error .keyError
              | some cap => .ok (some ⟨some kind, some (.str cap), some mid⟩)
  else .ok none

/-- Embedding of the inner loop (line 38): the items of the original block
are scanned in order; each matching link overwrites the block's slot, so
the accumulator holds the slot's current value, and an exception stops the
scan with the slot as last assigned. -/
def processItems (parsed : List (String × String)) :
    BlockElement → List InlineItem → BlockElement × Option RTError
  | cur, [] => (cur, none)
  | cur, item :: rest =>
    match processItem parsed item with
    | .error er => (cur, some er)
    | .ok none => processItems parsed cur rest
    | .ok (some repl) => processItems parsed repl rest

/-- Embedding of the body of the outer loop for one block (lines 31-55):
absent `"c"` raises TypeError on iteration; a string `"c"` is asserted to
be an inline leaf of kind gif/img/video and skipped; otherwise the inline
items are scanned. -/
def processBlock (parsed : List (String × String)) (b : BlockElement) :
    BlockElement × Option RTError :=
  match b.c with
  | none => (b, some .typeError)
  | some (.str _) =>
    if b.e = some "gif" ∨ b.e = some "img" ∨ b.e = some "video" then (b, none)
    else (b, some .schemaViolation)
  | some (.items l) => processItems parsed b l

/-- Embedding of the outer loop (line 30): iterate over a snapshot of the
document, replacing entries by index; an exception leaves the already
processed prefix, the current slot's last value, and the untouched rest. -/
def traverseDoc (parsed : List (String × String)) :
    List BlockElement → List BlockElement × Option RTError
  | [] => ([], none)
  | b :: rest =>
    match processBlock parsed b with
    | (b₂, some er) => (b₂ :: rest, some er)
    | (b₂, none) =>
      let r := traverseDoc parsed rest
      (b₂ :: r.1, r.2)

/-- Embedding of `EditableMixin._replace_richtext_links` (lines 24-55).
The result is the document as left by the call together with the raised
exception, if any. -/
def reconcile (obj : EditableObject) (doc : List BlockElement) :
    List BlockElement × Option RTError :=
  match obj.media_metadata with
  | none => (doc, none)
  | some mm =>
    match buildParsed mm with
    | .error er => (doc, some er)
    | .ok parsed => traverseDoc parsed doc

/-- Observable steps of `EditableMixin.edit` relevant to call ordering:
inline-media upload (`_upload_inline_media`), body conversion
(`_convert_to_fancypants`), and the edit-submission request
(`self._reddit.post(API_PATH["edit"], ...)`), carrying the rich-text
payload it submits, when any. -/
inductive EditStep where
  | uploadMedia
  | convertBody
  | submitEdit (richtext : Option (List BlockElement))
deriving DecidableEq

/-- Embedding of the control flow of `EditableMixin.edit` (lines 107-129)
as the sequence of collaborator calls it issues.  `matchesInlinePattern`
stands for `INLINE_MEDIA_PATTERN.search(body)` and `hasInlineMedia` for
`inline_media` being non-empty; `convertedDoc` is the document returned by
the external converter.  A reconciler exception propagates, cutting the
step list short. -/
def edit (obj : EditableObject) (hasInlineMedia matchesInlinePattern preserve : Bool)
    (convertedDoc : List BlockElement) : List EditStep × Option RTError :=
  let isRichtextJson := matchesInlinePattern || hasInlineMedia
  let steps0 := if hasInlineMedia then [EditStep.uploadMedia] else []
  if isRichtextJson then
    let steps1 := steps0 ++ [EditStep.convertBody]
    if preserve then
      match reconcile obj convertedDoc with
      | (doc₂, none) => (steps1 ++ [EditStep.submitEdit (some doc₂)], none)
      | (_, some er) => (steps1, some er)
    else (steps1 ++ [EditStep.submitEdit (some convertedDoc)], none)
  else (steps0 ++ [EditStep.submitEdit none], none)

/-! ### Helper lemmas: the URL character machinery -/

theorem mem_of_beginsWith {s l : List Char} {a : Char}
    (h : beginsWith s l = true) (ha : a ∈ s) : a ∈ l := by
  induction s generalizing l with
  | nil => simp at ha
  | cons b rb ih =>
    cases l with
    | nil => simp [beginsWith] at h
    | cons c rc =>
      simp only [beginsWith, Bool.and_eq_true, beq_iff_eq] at h
      rcases List.mem_cons.mp ha with rfl | ha
      · exact h.1 ▸ List.mem_cons_self _ _
      · exact List.mem_cons_of_mem _ (ih h.2 ha)

theorem colon_mem_of_beginsWith_https {l : List Char}
    (h : beginsWith httpsSep l = true) : ':' ∈ l :=
  mem_of_beginsWith h (by decide)

theorem untilHttps_of_no_colon {l : List Char} (h : ':' ∉ l) : untilHttps l = l := by
  induction l with
  | nil => rfl
  | cons c rest ih =>
    rw [untilHttps]
    cases hb : beginsWith httpsSep (c :: rest) with
    | true => exact absurd (colon_mem_of_beginsWith_https hb) h
    | false =>
      simp only [Bool.false_eq_true, if_false]
      rw [ih fun hm => h (List.mem_cons_of_mem _ hm)]

theorem afterHttps_of_not_contains {l : List Char}
    (h : containsHttps l = false) : afterHttps l = none := by
  induction l with
  | nil => rfl
  | cons c rest ih =>
    rw [containsHttps, Bool.or_eq_false_iff] at h
    rw [afterHttps, h.1]
    simp only [Bool.false_eq_true, if_false]
    exact ih h.2

theorem takeWhile_append_of_pos {p : Char → Bool} {l₁ l₂ : List Char}
    (h : ∀ a ∈ l₁, p a = true) :
    (l₁ ++ l₂).takeWhile p = l₁ ++ l₂.takeWhile p := by
  induction l₁ with
  | nil => rfl
  | cons a ra ih =>
    rw [List.cons_append, List.takeWhile_cons, h a (List.mem_cons_self _ _),
      ih fun b hb => h b (List.mem_cons_of_mem _ hb)]
    simp

theorem splitDotSlash_sep_cons {c : Char} {l : List Char} (h : c = '.' ∨ c = '/') :
    splitDotSlash (c :: l) = [] :: splitDotSlash l := by
  rw [splitDotSlash]
  have : (c == '.' || c == '/') = true := by
    rcases h with rfl | rfl <;> decide
  rw [this, if_pos rfl]

theorem splitDotSlash_append_sep {l₁ l₂ : List Char} {c : Char}
    (h₁ : ∀ a ∈ l₁, ¬(a = '.' ∨ a = '/')) (hc : c = '.' ∨ c = '/') :
    splitDotSlash (l₁ ++ c :: l₂) = l₁ :: splitDotSlash l₂ := by
  induction l₁ with
  | nil => exact splitDotSlash_sep_cons hc
  | cons a ra ih =>
    rw [List.cons_append, splitDotSlash]
    have ha : (a == '.' || a == '/') = false := by
      have := h₁ a (List.mem_cons_self _ _)
      simp only [Bool.or_eq_false_iff, beq_eq_false_iff_ne, ne_eq]
      exact ⟨fun hd => this (Or.inl hd), fun hd => this (Or.inr hd)⟩
    rw [ha]
    simp only [Bool.false_eq_true, if_false]
    rw [ih fun b hb => h₁ b (List.mem_cons_of_mem _ hb)]

theorem splitDotSlash_no_sep {l : List Char}
    (h : ∀ a ∈ l, ¬(a = '.' ∨ a = '/')) : splitDotSlash l = [l] := by
  induction l with
  | nil => rfl
  | cons a ra ih =>
    rw [splitDotSlash]
    have ha : (a == '.' || a == '/') = false := by
      have := h a (List.mem_cons_self _ _)
      simp only [Bool.or_eq_false_iff, beq_eq_false_iff_ne, ne_eq]
      exact ⟨fun hd => this (Or.inl hd), fun hd => this (Or.inr hd)⟩
    rw [ha]
    simp only [Bool.false_eq_true, if_false]
    rw [ih fun b hb => h b (List.mem_cons_of_mem _ hb)]

theorem beginsWith_append_self (s l : List Char) : beginsWith s (s ++ l) = true := by
  induction s with
  | nil => rfl
  | cons a ra ih => simp [beginsWith, ih]

theorem afterHttps_sep_append (l : List Char) : afterHttps (httpsSep ++ l) = some l := by
  have h1 : afterHttps (httpsSep ++ l)
      = if beginsWith httpsSep (httpsSep ++ l) then some ((httpsSep ++ l).drop 8)
        else afterHttps (['t', 't', 'p', 's', ':', '/', '/'] ++ l) := rfl
  rw [h1, beginsWith_append_self]
  simp only [if_true]
  rw [show (8 : Nat) = httpsSep.length from rfl, List.drop_left]

theorem urlTokens_eq_of_afterHttps {u : String} {rest : List Char}
    (h : afterHttps u.data = some rest) :
    urlTokens u
      = some ((splitDotSlash ((untilHttps rest).takeWhile (fun c => c != '?'))).map String.mk) := by
  unfold urlTokens
  rw [h]

theorem urlTokens_synthetic (mid : String)
    (hchars : ∀ c ∈ mid.data, ¬(c = '.' ∨ c = '/' ∨ c = '?' ∨ c = ':')) :
    urlTokens ("https://i.redd.it/" ++ mid ++ "?amp=1") = some ["i", "redd", "it", mid] := by
  have hdata : ("https://i.redd.it/" ++ mid ++ "?amp=1").data
      = httpsSep ++ (['i', '.', 'r', 'e', 'd', 'd', '.', 'i', 't', '/']
          ++ (mid.data ++ ('?' :: ['a', 'm', 'p', '=', '1']))) := by
    rw [String.data_append, String.data_append]
    rw [show ("https://i.redd.it/").data
        = httpsSep ++ ['i', '.', 'r', 'e', 'd', 'd', '.', 'i', 't', '/'] from rfl,
      show ("?amp=1").data = '?' :: ['a', 'm', 'p', '=', '1'] from rfl]
    simp [List.append_assoc]
  have hcol : (':' : Char) ∉ ['i', '.', 'r', 'e', 'd', 'd', '.', 'i', 't', '/']
      ++ (mid.data ++ ('?' :: ['a', 'm', 'p', '=', '1'])) := by
    intro hm
    rcases List.mem_append.mp hm with h | h
    · exact absurd h (by decide)
    · rcases List.mem_append.mp h with h | h
      · exact hchars _ h (Or.inr (Or.inr (Or.inr rfl)))
      · exact absurd h (by decide)
  have htw : (['i', '.', 'r', 'e', 'd', 'd', '.', 'i', 't', '/']
        ++ (mid.data ++ ('?' :: ['a', 'm', 'p', '=', '1']))).takeWhile (fun c => c != '?')
      = ['i', '.', 'r', 'e', 'd', 'd', '.', 'i', 't', '/'] ++ mid.data := by
    rw [takeWhile_append_of_pos (by decide),
      takeWhile_append_of_pos (fun a ha => by
        have := hchars a ha
        simp only [bne_iff_ne, ne_eq, decide_eq_true_eq]
        exact fun hq => this (Or.inr (Or.inr (Or.inl hq))))]
    rw [List.takeWhile_cons]
    norm_num
  have hsds : splitDotSlash (['i', '.', 'r', 'e', 'd', 'd', '.', 'i', 't', '/'] ++ mid.data)
      = [['i'], ['r', 'e', 'd', 'd'], ['i', 't'], mid.data] := by
    rw [show ['i', '.', 'r', 'e', 'd', 'd', '.', 'i', 't', '/'] ++ mid.data
        = ['i'] ++ '.' :: (['r', 'e', 'd', 'd'] ++ '.' :: (['i', 't'] ++ '/' :: mid.data)) from rfl]
    rw [splitDotSlash_append_sep (by decide) (Or.inl rfl),
      splitDotSlash_append_sep (by decide) (Or.inl rfl),
      splitDotSlash_append_sep (by decide) (Or.inr rfl),
      splitDotSlash_no_sep (fun a ha hor => hchars a ha
        (hor.elim (fun h => Or.inl h) (fun h => Or.inr (Or.inl h))))]
  have hafter : afterHttps (("https://i.redd.it/" ++ mid ++ "?amp=1").data)
      = some (['i', '.', 'r', 'e', 'd', 'd', '.', 'i', 't', '/']
          ++ (mid.data ++ ('?' :: ['a', 'm', 'p', '=', '1']))) := by
    rw [hdata]; exact afterHttps_sep_append _
  rw [urlTokens_eq_of_afterHttps hafter, untilHttps_of_no_colon hcol, htw, hsds]
  rfl

/-! ### Helper lemmas: parsed media-type map construction -/

theorem dictGet_cons {α : Type} (k k₂ : String) (v : α) (rest : List (String × α)) :
    dictGet k ((k₂, v) :: rest) = if k₂ = k then some v else dictGet k rest := rfl

theorem dictGet_buildParsed {mm : List (String × MediaDescr)}
    {parsed : List (String × String)} (h : buildParsed mm = .ok parsed) (k : String) :
    dictGet k parsed = (dictGet k mm).bind (fun d => dictGet d.e MEDIA_TYPE_MAPPING) := by
  induction mm generalizing parsed with
  | nil =>
    simp only [buildParsed, Except.ok.injEq] at h
    subst h
    rfl
  | cons p rest ih =>
    obtain ⟨mid, d⟩ := p
    rw [buildParsed] at h
    cases hm : dictGet d.e MEDIA_TYPE_MAPPING with
    | none => rw [hm] at h; exact absurd h (by simp)
    | some k₂ =>
      rw [hm] at h
      cases hb : buildParsed rest with
      | error er => rw [hb] at h; exact absurd h (by simp)
      | ok l =>
        rw [hb] at h
        simp only [Except.ok.injEq] at h
        subst h
        rw [dictGet_cons, dictGet_cons]
        by_cases hk : mid = k
        · rw [if_pos hk, if_pos hk]
          show some k₂ = dictGet d.e MEDIA_TYPE_MAPPING
          rw [hm]
        · rw [if_neg hk, if_neg hk, ih hb]

theorem buildParsed_ok_of_known {mm : List (String × MediaDescr)}
    (h : ∀ p ∈ mm, (dictGet p.2.e MEDIA_TYPE_MAPPING).isSome) :
    ∃ parsed, buildParsed mm = .ok parsed := by
  induction mm with
  | nil => exact ⟨[], rfl⟩
  | cons p rest ih =>
    obtain ⟨mid, d⟩ := p
    have hd := h (mid, d) (List.mem_cons_self _ _)
    cases hm : dictGet d.e MEDIA_TYPE_MAPPING with
    | none => rw [hm] at hd; simp at hd
    | some k =>
      obtain ⟨l, hl⟩ := ih fun q hq => h q (List.mem_cons_of_mem _ hq)
      exact ⟨(mid, k) :: l, by rw [buildParsed, hm, hl]⟩

theorem buildParsed_error_of_unknown {mm : List (String × MediaDescr)}
    (h : ∃ p ∈ mm, dictGet p.2.e MEDIA_TYPE_MAPPING = none) :
    ∃ s, buildParsed mm = .error (.unknownMediaKind s) := by
  induction mm with
  | nil => simp at h
  | cons p rest ih =>
    obtain ⟨mid, d⟩ := p
    cases hm : dictGet d.e MEDIA_TYPE_MAPPING with
    | none => exact ⟨d.e, by rw [buildParsed, hm]⟩
    | some k =>
      obtain ⟨q, hq, hqn⟩ := h
      rcases List.mem_cons.mp hq with rfl | hq₂
      · rw [hm] at hqn; exact absurd hqn (by simp)
      · obtain ⟨s, hs⟩ := ih ⟨q, hq₂, hqn⟩
        exact ⟨s, by rw [buildParsed, hm, hs]⟩

/-! ### Helper lemmas: item processing -/

theorem processItem_not_link {parsed : List (String × String)} {item : InlineItem}
    (h : ¬item.e = some "link") : processItem parsed item = .ok none := by
  unfold processItem
  rw [if_neg h]

theorem processItem_nomatch {parsed : List (String × String)} {item : InlineItem}
    {u : String} {toks : List String}
    (hu : item.u = some u) (ht : urlTokens u = some toks)
    (hn : ∀ tok ∈ toks, dictGet tok parsed = none) :
    processItem parsed item = .ok none := by
  have hf : toks.find? (fun tok => (dictGet tok parsed).isSome) = none := by
    rw [List.find?_eq_none]
    intro tok htok
    rw [hn tok htok]
    simp
  by_cases he : item.e = some "link"
  · simp only [processItem, if_pos he, hu, ht, hf]
  · exact processItem_not_link he

theorem processItem_replaced {parsed : List (String × String)} {item : InlineItem}
    {r : BlockElement} (h : processItem parsed item = .ok (some r)) :
    item.e = some "link" ∧
      ∃ u toks mid kind, item.u = some u ∧ urlTokens u = some toks ∧
        mid ∈ toks ∧ dictGet mid parsed = some kind ∧
        r.e = some kind ∧ r.id = some mid ∧
        ((item.t = item.u ∧ r.c = none) ∨
          (¬item.t = item.u ∧ ∃ cap, item.t = some cap ∧ r.c = some (.str cap))) := by
  unfold processItem at h
  by_cases he : item.e = some "link"
  case neg => rw [if_neg he] at h; exact absurd h (by simp)
  rw [if_pos he] at h
  refine ⟨he, ?_⟩
  cases hu : item.u with
  | none => simp only [hu] at h; exact absurd h (by simp)
  | some u =>
    simp only [hu] at h
    cases ht : urlTokens u with
    | none => simp only [ht] at h; exact absurd h (by simp)
    | some toks =>
      simp only [ht] at h
      cases hf : toks.find? (fun tok => (dictGet tok parsed).isSome) with
      | none => simp only [hf] at h; exact absurd h (by simp)
      | some mid =>
        simp only [hf] at h
        cases hd : dictGet mid parsed with
        | none => simp only [hd] at h; exact absurd h (by simp)
        | some kind =>
          simp only [hd] at h
          by_cases htu : item.t = some u
          · rw [if_pos htu] at h
            simp only [Except.ok.injEq, Option.some.injEq] at h
            subst h
            exact ⟨u, toks, mid, kind, rfl, ht, List.mem_of_find?_eq_some hf, hd, rfl, rfl,
              Or.inl ⟨htu, rfl⟩⟩
          · rw [if_neg htu] at h
            cases hcap : item.t with
            | none => simp only [hcap] at h; exact absurd h (by simp)
            | some cap =>
              simp only [hcap] at h
              simp only [Except.ok.injEq, Option.some.injEq] at h
              subst h
              exact ⟨u, toks, mid, kind, rfl, ht, List.mem_of_find?_eq_some hf, hd, rfl, rfl,
                Or.inr ⟨hcap ▸ htu, cap, rfl, rfl⟩⟩

theorem processItem_empty_not_some {item : InlineItem} {r : BlockElement}
    (h : processItem [] item = .ok (some r)) : False := by
  obtain ⟨-, u, toks, mid, kind, -, -, -, hd, -⟩ := processItem_replaced h
  simp [dictGet] at hd

/-! ### Helper lemmas: block processing -/

theorem processItems_fst (parsed : List (String × String)) (items : List InlineItem) :
    ∀ cur, (processItems parsed cur items).1 = cur ∨
      ∃ item ∈ items, processItem parsed item = .ok (some (processItems parsed cur items).1) := by
  induction items with
  | nil => exact fun cur => Or.inl rfl
  | cons item rest ih =>
    intro cur
    simp only [processItems]
    cases hp : processItem parsed item with
    | error er => exact Or.inl rfl
    | ok o =>
      cases o with
      | none =>
        rcases ih cur with h | ⟨it, hmem, heq⟩
        · exact Or.inl h
        · exact Or.inr ⟨it, List.mem_cons_of_mem _ hmem, heq⟩
      | some repl =>
        rcases ih repl with h | ⟨it, hmem, heq⟩
        · exact Or.inr ⟨item, List.mem_cons_self _ _, by rw [show (processItems parsed repl rest).1 = repl from h]; exact hp⟩
        · exact Or.inr ⟨it, List.mem_cons_of_mem _ hmem, heq⟩

theorem processItems_ok_items (parsed : List (String × String)) (items : List InlineItem) :
    ∀ cur, (processItems parsed cur items).2 = none →
      ∀ item ∈ items, ∃ o, processItem parsed item = .ok o := by
  induction items with
  | nil => intro cur _ item hm; simp at hm
  | cons item rest ih =>
    intro cur h it hm
    simp only [processItems] at h
    cases hp : processItem parsed item with
    | error er => rw [hp] at h; simp at h
    | ok o =>
      rw [hp] at h
      rcases List.mem_cons.mp hm with rfl | hm₂
      · exact ⟨o, hp⟩
      · cases o with
        | none => exact ih cur h it hm₂
        | some repl => exact ih repl h it hm₂

theorem processItems_all_none (parsed : List (String × String)) (items : List InlineItem)
    (h : ∀ item ∈ items, processItem parsed item = .ok none) :
    ∀ cur, processItems parsed cur items = (cur, none) := by
  induction items with
  | nil => intro cur; rfl
  | cons item rest ih =>
    intro cur
    simp only [processItems, h item (List.mem_cons_self _ _)]
    exact ih (fun it hm => h it (List.mem_cons_of_mem _ hm)) cur

theorem processBlock_none (parsed : List (String × String)) {b : BlockElement}
    (hc : b.c = none) : processBlock parsed b = (b, some .typeError) := by
  simp only [processBlock, hc]

theorem processBlock_items (parsed : List (String × String)) {b : BlockElement}
    {l : List InlineItem} (hc : b.c = some (.items l)) :
    processBlock parsed b = processItems parsed b l := by
  simp only [processBlock, hc]

theorem processBlock_str_ok (parsed : List (String × String)) {b : BlockElement} {s : String}
    (hc : b.c = some (.str s))
    (he : b.e = some "gif" ∨ b.e = some "img" ∨ b.e = some "video") :
    processBlock parsed b = (b, none) := by
  simp only [processBlock, hc]
  rw [if_pos he]

theorem processBlock_str_err (parsed : List (String × String)) {b : BlockElement} {s : String}
    (hc : b.c = some (.str s))
    (he : ¬(b.e = some "gif" ∨ b.e = some "img" ∨ b.e = some "video")) :
    processBlock parsed b = (b, some .schemaViolation) := by
  simp only [processBlock, hc]
  rw [if_neg he]

theorem processBlock_fst (parsed : List (String × String)) (b : BlockElement) :
    (processBlock parsed b).1 = b ∨
      ∃ items, b.c = some (.items items) ∧
        ∃ item ∈ items, processItem parsed item = .ok (some (processBlock parsed b).1) := by
  cases hc : b.c with
  | none => rw [processBlock_none parsed hc]; exact Or.inl rfl
  | some bc =>
    cases bc with
    | str s =>
      by_cases he : b.e = some "gif" ∨ b.e = some "img" ∨ b.e = some "video"
      · rw [processBlock_str_ok parsed hc he]; exact Or.inl rfl
      · rw [processBlock_str_err parsed hc he]; exact Or.inl rfl
    | items l =>
      rw [processBlock_items parsed hc]
      rcases processItems_fst parsed l b with h | ⟨item, hm, he⟩
      · exact Or.inl h
      · exact Or.inr ⟨l, rfl, item, hm, he⟩

/-! ### Helper lemmas: document traversal -/

theorem traverseDoc_length (parsed : List (String × String)) (doc : List BlockElement) :
    (traverseDoc parsed doc).1.length = doc.length := by
  induction doc with
  | nil => rfl
  | cons b rest ih =>
    simp only [traverseDoc]
    cases hp : processBlock parsed b with
    | mk b₂ err =>
      cases err with
      | none => simp [ih]
      | some er => simp

theorem traverseDoc_get? (parsed : List (String × String)) (doc : List BlockElement) :
    ∀ i b, doc.get? i = some b →
      ∃ b₂, (traverseDoc parsed doc).1.get? i = some b₂ ∧
        (b₂ = b ∨ b₂ = (processBlock parsed b).1) := by
  induction doc with
  | nil => intro i b h; simp at h
  | cons x rest ih =>
    intro i b h
    simp only [traverseDoc]
    cases hp : processBlock parsed x with
    | mk x₂ err =>
      cases err with
      | some er =>
        cases i with
        | zero =>
          have hxb : x = b := by simpa using h
          subst hxb
          exact ⟨x₂, by simp, Or.inr (by rw [hp])⟩
        | succ i => exact ⟨b, by simpa using h, Or.inl rfl⟩
      | none =>
        cases i with
        | zero =>
          have hxb : x = b := by simpa using h
          subst hxb
          exact ⟨x₂, by simp, Or.inr (by rw [hp])⟩
        | succ i =>
          obtain ⟨b₂, hg, hd⟩ := ih i b (by simpa using h)
          exact ⟨b₂, by simpa using hg, hd⟩

theorem traverseDoc_snd_none (parsed : List (String × String)) (doc : List BlockElement) :
    (traverseDoc parsed doc).2 = none → ∀ b ∈ doc, (processBlock parsed b).2 = none := by
  induction doc with
  | nil => intro _ b hm; simp at hm
  | cons x rest ih =>
    intro h b hm
    simp only [traverseDoc] at h
    cases hp : processBlock parsed x with
    | mk x₂ err =>
      rw [hp] at h
      cases err with
      | some er => simp at h
      | none =>
        rcases List.mem_cons.mp hm with rfl | hm₂
        · rw [hp]
        · exact ih (by simpa using h) b hm₂

theorem traverseDoc_err_at (parsed : List (String × String)) (doc : List BlockElement) :
    ∀ i b er, doc.get? i = some b →
      (∀ j bj, j < i → doc.get? j = some bj → (processBlock parsed bj).2 = none) →
      (processBlock parsed b).2 = some er →
      (traverseDoc parsed doc).2 = some er := by
  induction doc with
  | nil => intro i b er h _ _; simp at h
  | cons x rest ih =>
    intro i b er h hclean herr
    simp only [traverseDoc]
    cases i with
    | zero =>
      have hxb : x = b := by simpa using h
      subst hxb
      cases hp : processBlock parsed x with
      | mk x₂ err2 =>
        rw [hp] at herr
        simp only at herr
        subst herr
        simp
    | succ i =>
      have h0 : (processBlock parsed x).2 = none :=
        hclean 0 x (Nat.succ_pos i) (by simp)
      cases hp : processBlock parsed x with
      | mk x₂ err2 =>
        rw [hp] at h0
        simp only at h0
        subst h0
        simpa using ih i b er (by simpa using h)
          (fun j bj hj hg => hclean (j + 1) bj (Nat.succ_lt_succ hj) (by simpa using hg)) herr

/-! ### Helper lemmas: the empty media map never rewrites anything -/

theorem processBlock_empty_fst (b : BlockElement) : (processBlock [] b).1 = b := by
  rcases processBlock_fst [] b with h | ⟨items, _, item, _, he⟩
  · exact h
  · exact (processItem_empty_not_some he).elim

theorem traverseDoc_fst_of_all (parsed : List (String × String)) (doc : List BlockElement)
    (h : ∀ b ∈ doc, (processBlock parsed b).1 = b) : (traverseDoc parsed doc).1 = doc := by
  induction doc with
  | nil => rfl
  | cons b rest ih =>
    simp only [traverseDoc]
    cases hp : processBlock parsed b with
    | mk b₂ err =>
      have hb : b₂ = b := by
        rw [show b₂ = (processBlock parsed b).1 from by rw [hp]]
        exact h b (List.mem_cons_self _ _)
      cases err with
      | some er => rw [hb]
      | none =>
        show b₂ :: (traverseDoc parsed rest).1 = b :: rest
        rw [hb, ih fun x hx => h x (List.mem_cons_of_mem _ hx)]

theorem traverseDoc_empty_fst (doc : List BlockElement) : (traverseDoc [] doc).1 = doc :=
  traverseDoc_fst_of_all [] doc fun b _ => processBlock_empty_fst b

theorem processBlock_fst_of_no_link (parsed : List (String × String)) (b : BlockElement)
    (h : ∀ l, b.c = some (.items l) → ∀ item ∈ l, ¬item.e = some "link") :
    (processBlock parsed b).1 = b := by
  rcases processBlock_fst parsed b with h1 | ⟨l, hcl, item, hm, he⟩
  · exact h1
  · exact absurd (processItem_replaced he).1 (h l hcl item hm)

/-! ### Claim theorems -/

/-- C1: for every media identifier `mid` that is a key of the media map,
reconciling a document containing a block whose sole inline item is a link
with URL `https://i.redd.it/{mid}?amp=1` replaces that entire block with a
new leaf `{e := mappedKind mid, id := mid}`; the leaf has no caption field
when the link's display text equals its URL, and carries the display text
as a caption field when it differs.  Side conditions making the synthetic
URL well-behaved: every descriptor kind in the map is known (otherwise the
map construction itself raises before any replacement), `mid` contains
none of the delimiter characters `.`, `/`, `?`, `:` the URL surgery splits
on, and the literal host tokens `i`, `redd`, `it` are not themselves keys
of the map. -/
theorem C1_synthetic_url_replacement
    (mm : List (String × MediaDescr)) (mid kind : String) (d : MediaDescr)
    (be bid : Option String) (cap : String)
    (hlook : dictGet mid mm = some d)
    (hkind : dictGet d.e MEDIA_TYPE_MAPPING = some kind)
    (hall : ∀ p ∈ mm, (dictGet p.2.e MEDIA_TYPE_MAPPING).isSome)
    (hchars : ∀ c ∈ mid.data, ¬(c = '.' ∨ c = '/' ∨ c = '?' ∨ c = ':'))
    (hi : dictGet "i" mm = none) (hredd : dictGet "redd" mm = none)
    (hit : dictGet "it" mm = none)
    (hcap : ¬cap = "https://i.redd.it/" ++ mid ++ "?amp=1") :
    reconcile ⟨some mm⟩
        [⟨be, some (.items [⟨some "link", some ("https://i.redd.it/" ++ mid ++ "?amp=1"),
          some ("https://i.redd.it/" ++ mid ++ "?amp=1")⟩]), bid⟩]
      = ([⟨some kind, none, some mid⟩], none) ∧
    reconcile ⟨some mm⟩
        [⟨be, some (.items [⟨some "link", some ("https://i.redd.it/" ++ mid ++ "?amp=1"),
          some cap⟩]), bid⟩]
      = ([⟨some kind, some (.str cap), some mid⟩], none) := by
  obtain ⟨parsed, hbp⟩ := buildParsed_ok_of_known hall
  have hparsed := dictGet_buildParsed hbp
  have htoks := urlTokens_synthetic mid hchars
  have hfind : (["i", "redd", "it", mid] : List String).find?
      (fun tok => (dictGet tok parsed).isSome) = some mid := by
    have h1 : (dictGet "i" parsed).isSome = false := by rw [hparsed "i", hi]; rfl
    have h2 : (dictGet "redd" parsed).isSome = false := by rw [hparsed "redd", hredd]; rfl
    have h3 : (dictGet "it" parsed).isSome = false := by rw [hparsed "it", hit]; rfl
    have h4 : (dictGet mid parsed).isSome = true := by
      rw [hparsed mid, hlook]
      show (dictGet d.e MEDIA_TYPE_MAPPING).isSome = true
      rw [hkind]; rfl
    simp [List.find?, h1, h2, h3, h4]
  have hmid : dictGet mid parsed = some kind := by
    rw [hparsed mid, hlook]
    show dictGet d.e MEDIA_TYPE_MAPPING = some kind
    exact hkind
  constructor
  · have hpi : processItem parsed
        ⟨some "link", some ("https://i.redd.it/" ++ mid ++ "?amp=1"),
          some ("https://i.redd.it/" ++ mid ++ "?amp=1")⟩
        = .ok (some ⟨some kind, none, some mid⟩) := by
      simp [processItem, htoks, hfind, hmid]
    simp [reconcile, hbp, traverseDoc, processBlock, processItems, hpi]
  · have hpi : processItem parsed
        ⟨some "link", some ("https://i.redd.it/" ++ mid ++ "?amp=1"), some cap⟩
        = .ok (some ⟨some kind, some (.str cap), some mid⟩) := by
      simp [processItem, htoks, hfind, hmid, hcap]
    simp [reconcile, hbp, traverseDoc, processBlock, processItems, hpi]

/-- Witness for C1 at a concrete media map, identifier and caption. -/
theorem C1_witness :
    reconcile ⟨some [("abc123", ⟨"Image"⟩)]⟩
        [⟨some "par", some (.items [⟨some "link",
          some ("https://i.redd.it/" ++ "abc123" ++ "?amp=1"),
          some ("https://i.redd.it/" ++ "abc123" ++ "?amp=1")⟩]), none⟩]
      = ([⟨some "img", none, some "abc123"⟩], none) ∧
    reconcile ⟨some [("abc123", ⟨"Image"⟩)]⟩
        [⟨some "par", some (.items [⟨some "link",
          some ("https://i.redd.it/" ++ "abc123" ++ "?amp=1"),
          some "caption text"⟩]), none⟩]
      = ([⟨some "img", some (.str "caption text"), some "abc123"⟩], none) :=
  C1_synthetic_url_replacement [("abc123", ⟨"Image"⟩)] "abc123" "img" ⟨"Image"⟩
    (some "par") none "caption text" (by decide) (by decide) (by decide) (by decide)
    (by decide) (by decide) (by decide) (by decide)

/-- C2: the canonical-kind table maps Image to img, RedditVideo to video and
AnimatedImage to gif; for a media map containing a descriptor with any
other kind, reconciliation fails with an unknown-media-kind error raised
while building the derived kind map, before the document is touched: the
same error is produced for every document, and the returned document is
the input unchanged. -/
theorem C2_unknown_media_kind
    (mm : List (String × MediaDescr)) (mid : String) (d : MediaDescr)
    (hmem : (mid, d) ∈ mm) (hunk : dictGet d.e MEDIA_TYPE_MAPPING = none) :
    dictGet "Image" MEDIA_TYPE_MAPPING = some "img" ∧
    dictGet "RedditVideo" MEDIA_TYPE_MAPPING = some "video" ∧
    dictGet "AnimatedImage" MEDIA_TYPE_MAPPING = some "gif" ∧
    ∃ s, ∀ doc : List BlockElement,
      reconcile ⟨some mm⟩ doc = (doc, some (.unknownMediaKind s)) := by
  refine ⟨by decide, by decide, by decide, ?_⟩
  obtain ⟨s, hs⟩ := buildParsed_error_of_unknown ⟨(mid, d), hmem, hunk⟩
  exact ⟨s, fun doc => by simp [reconcile, hs]⟩

/-- Witness for C2 at a concrete media map holding a gallery descriptor. -/
theorem C2_witness :
    dictGet "Image" MEDIA_TYPE_MAPPING = some "img" ∧
    dictGet "RedditVideo" MEDIA_TYPE_MAPPING = some "video" ∧
    dictGet "AnimatedImage" MEDIA_TYPE_MAPPING = some "gif" ∧
    ∃ s, ∀ doc : List BlockElement,
      reconcile ⟨some [("xyz", ⟨"RedditGallery"⟩)]⟩ doc
        = (doc, some (.unknownMediaKind s)) :=
  C2_unknown_media_kind [("xyz", ⟨"RedditGallery"⟩)] "xyz" ⟨"RedditGallery"⟩
    (by decide) (by decide)

/-- C3 counterexample: the claim as stated quantifies over blocks merely
CONTAINING a no-match link item.  Here the block's first link is a
no-match (its URL tokens meet no key of the media map), yet reconcile
replaces the block, because its second link matches. -/
theorem C3_counterexample :
    urlTokens "https://example.com/page" = some ["example", "com", "page"] ∧
    (∀ tok ∈ (["example", "com", "page"] : List String),
      dictGet tok [("abc123", (⟨"Image"⟩ : MediaDescr))] = none) ∧
    reconcile ⟨some [("abc123", ⟨"Image"⟩)]⟩
        [⟨some "par", some (.items
          [⟨some "link", some "https://example.com/page", some "https://example.com/page"⟩,
           ⟨some "link", some "https://i.redd.it/abc123?amp=1",
             some "https://i.redd.it/abc123?amp=1"⟩]), none⟩]
      = ([⟨some "img", none, some "abc123"⟩], none) ∧
    ¬(⟨some "img", none, some "abc123"⟩ : BlockElement)
      = ⟨some "par", some (.items
          [⟨some "link", some "https://example.com/page", some "https://example.com/page"⟩,
           ⟨some "link", some "https://i.redd.it/abc123?amp=1",
             some "https://i.redd.it/abc123?amp=1"⟩]), none⟩ := by
  decide

/-- C3 (amended): a block element whose content is an item list and ALL of
whose link items have URLs whose token lists contain no key of the media
map is left unchanged by reconcile at its index, and the block's own
processing raises no error — a no-match link is not an error.  The
amendment strengthens "containing a link item whose tokens do not match"
to "all of whose link items fail to match": a different, matching link in
the same block still replaces the whole block (see the counterexample). -/
theorem C3_nomatch_block_unchanged
    (mm : List (String × MediaDescr)) (parsed : List (String × String))
    (doc : List BlockElement) (i : Nat) (b : BlockElement) (l : List InlineItem)
    (hbp : buildParsed mm = .ok parsed)
    (hget : doc.get? i = some b)
    (hc : b.c = some (.items l))
    (hnm : ∀ item ∈ l, item.e = some "link" →
      ∃ u toks, item.u = some u ∧ urlTokens u = some toks ∧
        ∀ tok ∈ toks, dictGet tok mm = none) :
    processBlock parsed b = (b, none) ∧
    (reconcile ⟨some mm⟩ doc).1.get? i = some b := by
  have hitems : ∀ item ∈ l, processItem parsed item = .ok none := by
    intro item hm
    by_cases he : item.e = some "link"
    · obtain ⟨u, toks, hu, ht, hn⟩ := hnm item hm he
      refine processItem_nomatch hu ht ?_
      intro tok htok
      rw [dictGet_buildParsed hbp tok, hn tok htok]
      rfl
    · exact processItem_not_link he
  have hpb : processBlock parsed b = (b, none) := by
    rw [processBlock_items parsed hc]
    exact processItems_all_none parsed l hitems b
  refine ⟨hpb, ?_⟩
  rw [show reconcile ⟨some mm⟩ doc = traverseDoc parsed doc from by simp [reconcile, hbp]]
  obtain ⟨b₂, hg, hd⟩ := traverseDoc_get? parsed doc i b hget
  rcases hd with rfl | h2
  · exact hg
  · have hb : b₂ = b := by rw [h2, hpb]
    rw [hb] at hg
    exact hg

/-- Witness for the amended C3 at a concrete one-link no-match block. -/
theorem C3_witness :
    processBlock [("abc123", "img")]
        ⟨some "par", some (.items
          [⟨some "link", some "https://example.com/page", some "https://example.com/page"⟩]), none⟩
      = (⟨some "par", some (.items
          [⟨some "link", some "https://example.com/page", some "https://example.com/page"⟩]), none⟩, none) ∧
    (reconcile ⟨some [("abc123", ⟨"Image"⟩)]⟩
        [⟨some "par", some (.items
          [⟨some "link", some "https://example.com/page", some "https://example.com/page"⟩]), none⟩]).1.get? 0
      = some ⟨some "par", some (.items
          [⟨some "link", some "https://example.com/page", some "https://example.com/page"⟩]), none⟩ :=
  C3_nomatch_block_unchanged [("abc123", ⟨"Image"⟩)] [("abc123", "img")] _ 0 _
    [⟨some "link", some "https://example.com/page", some "https://example.com/page"⟩]
    (by rfl) (by decide) (by decide)
    (by
      intro item hm _
      rw [List.mem_singleton] at hm
      subst hm
      exact ⟨"https://example.com/page", ["example", "com", "page"],
        rfl, by decide, by decide⟩)

/-- C4: whenever reconcile changes a block at some index, the new element
was built from one of the block's link items: its id field is a key of
the media map and occurs verbatim among that link's URL tokens (after
scheme removal, query stripping, and splitting on dot and slash), and its
kind tag is that id's canonical kind.  No particular choice among several
matching tokens is asserted. -/
theorem C4_replacement_invariant
    (mm : List (String × MediaDescr)) (parsed : List (String × String))
    (doc : List BlockElement) (i : Nat) (b b₂ : BlockElement)
    (hbp : buildParsed mm = .ok parsed)
    (hget : doc.get? i = some b)
    (hget2 : (reconcile ⟨some mm⟩ doc).1.get? i = some b₂)
    (hne : ¬b₂ = b) :
    ∃ l item u toks mid kind,
      b.c = some (.items l) ∧ item ∈ l ∧ item.e = some "link" ∧
      item.u = some u ∧ urlTokens u = some toks ∧ mid ∈ toks ∧
      ¬dictGet mid mm = none ∧ dictGet mid parsed = some kind ∧
      b₂.e = some kind ∧ b₂.id = some mid := by
  rw [show reconcile ⟨some mm⟩ doc = traverseDoc parsed doc from by simp [reconcile, hbp]]
    at hget2
  obtain ⟨b₃, hg, hd⟩ := traverseDoc_get? parsed doc i b hget
  have hb23 : b₃ = b₂ := by
    have := hg.symm.trans hget2
    exact Option.some.inj this
  subst hb23
  rcases hd with rfl | h2
  · exact absurd rfl hne
  · rcases processBlock_fst parsed b with h1 | ⟨l, hcl, item, hm, he⟩
    · exact absurd (h2.trans h1) hne
    · rw [← h2] at he
      obtain ⟨hlink, u, toks, mid, kind, hu, ht, hmid, hdg, hbe, hbid, -⟩ :=
        processItem_replaced he
      refine ⟨l, item, u, toks, mid, kind, hcl, hm, hlink, hu, ht, hmid, ?_, hdg, hbe, hbid⟩
      intro hmm
      rw [dictGet_buildParsed hbp mid, hmm] at hdg
      exact absurd hdg (by simp)

/-- Witness for C4 at a concrete replaced block. -/
theorem C4_witness :
    ∃ l item u toks mid kind,
      (⟨some "par", some (.items [⟨some "link", some "https://i.redd.it/abc123?amp=1",
        some "https://i.redd.it/abc123?amp=1"⟩]), none⟩ : BlockElement).c
          = some (.items l) ∧
      item ∈ l ∧ item.e = some "link" ∧
      item.u = some u ∧ urlTokens u = some toks ∧ mid ∈ toks ∧
      ¬dictGet mid [("abc123", (⟨"Image"⟩ : MediaDescr))] = none ∧
      dictGet mid [("abc123", "img")] = some kind ∧
      (⟨some "img", none, some "abc123"⟩ : BlockElement).e = some kind ∧
      (⟨some "img", none, some "abc123"⟩ : BlockElement).id = some mid :=
  C4_replacement_invariant [("abc123", ⟨"Image"⟩)] [("abc123", "img")]
    [⟨some "par", some (.items [⟨some "link", some "https://i.redd.it/abc123?amp=1",
      some "https://i.redd.it/abc123?amp=1"⟩]), none⟩]
    0 _ ⟨some "img", none, some "abc123"⟩
    (by rfl) (by decide) (by decide) (by decide)

/-- C5: a block whose content field is a literal string is checked to be an
inline leaf whose kind tag is gif, img or video: if it is, the block is
skipped and left unchanged at its index; if it is not, its processing
fails with the schema-violation assertion, and reconcile propagates that
error to the caller once traversal reaches the block (all earlier blocks
processing cleanly). -/
theorem C5_string_leaf_assertion
    (mm : List (String × MediaDescr)) (parsed : List (String × String))
    (doc : List BlockElement) (i : Nat) (b : BlockElement) (s : String)
    (hbp : buildParsed mm = .ok parsed)
    (hget : doc.get? i = some b)
    (hc : b.c = some (.str s))
    (hclean : ∀ j bj, j < i → doc.get? j = some bj → (processBlock parsed bj).2 = none) :
    ((b.e = some "gif" ∨ b.e = some "img" ∨ b.e = some "video") →
      processBlock parsed b = (b, none) ∧
      (reconcile ⟨some mm⟩ doc).1.get? i = some b) ∧
    (¬(b.e = some "gif" ∨ b.e = some "img" ∨ b.e = some "video") →
      processBlock parsed b = (b, some .schemaViolation) ∧
      (reconcile ⟨some mm⟩ doc).2 = some .schemaViolation) := by
  have hrec : reconcile ⟨some mm⟩ doc = traverseDoc parsed doc := by simp [reconcile, hbp]
  constructor
  · intro he
    have hpb := processBlock_str_ok parsed hc he
    refine ⟨hpb, ?_⟩
    rw [hrec]
    obtain ⟨b₂, hg, hd⟩ := traverseDoc_get? parsed doc i b hget
    rcases hd with rfl | h2
    · exact hg
    · have hb : b₂ = b := by rw [h2, hpb]
      rw [hb] at hg
      exact hg
  · intro he
    have hpb := processBlock_str_err parsed hc he
    refine ⟨hpb, ?_⟩
    rw [hrec]
    exact traverseDoc_err_at parsed doc i b .schemaViolation hget hclean (by rw [hpb])

/-- Witness for C5 at a concrete string-content block of kind par. -/
theorem C5_witness :
    (((⟨some "par", some (.str "hello"), none⟩ : BlockElement).e = some "gif" ∨
        (⟨some "par", some (.str "hello"), none⟩ : BlockElement).e = some "img" ∨
        (⟨some "par", some (.str "hello"), none⟩ : BlockElement).e = some "video") →
      processBlock [("abc123", "img")] ⟨some "par", some (.str "hello"), none⟩
          = (⟨some "par", some (.str "hello"), none⟩, none) ∧
      (reconcile ⟨some [("abc123", ⟨"Image"⟩)]⟩
          [⟨some "par", some (.str "hello"), none⟩]).1.get? 0
        = some ⟨some "par", some (.str "hello"), none⟩) ∧
    (¬((⟨some "par", some (.str "hello"), none⟩ : BlockElement).e = some "gif" ∨
        (⟨some "par", some (.str "hello"), none⟩ : BlockElement).e = some "img" ∨
        (⟨some "par", some (.str "hello"), none⟩ : BlockElement).e = some "video") →
      processBlock [("abc123", "img")] ⟨some "par", some (.str "hello"), none⟩
          = (⟨some "par", some (.str "hello"), none⟩, some .schemaViolation) ∧
      (reconcile ⟨some [("abc123", ⟨"Image"⟩)]⟩
          [⟨some "par", some (.str "hello"), none⟩]).2 = some .schemaViolation) :=
  C5_string_leaf_assertion [("abc123", ⟨"Image"⟩)] [("abc123", "img")]
    [⟨some "par", some (.str "hello"), none⟩] 0 _ "hello"
    (by rfl) (by decide) (by decide)
    (fun j bj hj _ => absurd hj (Nat.not_lt_zero j))

/-- C6 counterexample: with the media-metadata attribute present but the
map empty, the claim asserts reconcile never fails; yet on a document
whose block has string content and kind tag par, the traversal still runs
and the inline-leaf assertion fails with a schema violation. -/
theorem C6_counterexample :
    (reconcile ⟨some []⟩ [⟨some "par", some (.str "hello"), none⟩]).2
      = some .schemaViolation ∧
    ¬(reconcile ⟨some []⟩ [⟨some "par", some (.str "hello"), none⟩]).2 = none := by
  decide

/-- C6 (amended): when the object has no media-metadata attribute,
reconcile is a no-op on every document and raises nothing; when the
attribute is present but the map is empty, reconcile never modifies the
document (no replacement can occur since no token matches), but it still
traverses the document and may raise its schema or URL exceptions, so the
no-failure part of the claim holds only in the attribute-absent case. -/
theorem C6_absent_or_empty_map (doc : List BlockElement) :
    reconcile ⟨none⟩ doc = (doc, none) ∧ (reconcile ⟨some []⟩ doc).1 = doc :=
  ⟨rfl, traverseDoc_empty_fst doc⟩

/-- C7: a document in which no block element contains an inline item
tagged link is left unchanged by reconcile: the resulting block sequence
equals the input, every original element still in place. -/
theorem C7_no_link_noop
    (obj : EditableObject) (doc : List BlockElement)
    (hnl : ∀ b ∈ doc, ∀ l, b.c = some (.items l) → ∀ item ∈ l, ¬item.e = some "link") :
    (reconcile obj doc).1 = doc := by
  obtain ⟨media⟩ := obj
  cases media with
  | none => rfl
  | some mm =>
    cases hbp : buildParsed mm with
    | error er =>
      rw [show reconcile ⟨some mm⟩ doc = (doc, some er) from by simp [reconcile, hbp]]
    | ok parsed =>
      rw [show reconcile ⟨some mm⟩ doc = traverseDoc parsed doc from by simp [reconcile, hbp]]
      exact traverseDoc_fst_of_all parsed doc
        fun b hb => processBlock_fst_of_no_link parsed b fun l hl => hnl b hb l hl

/-- Witness for C7 at a concrete link-free document. -/
theorem C7_witness :
    (reconcile ⟨some [("abc123", ⟨"Image"⟩)]⟩
        [⟨some "par", some (.items [⟨some "text", none, some "hello"⟩]), none⟩]).1
      = [⟨some "par", some (.items [⟨some "text", none, some "hello"⟩]), none⟩] :=
  C7_no_link_noop ⟨some [("abc123", ⟨"Image"⟩)]⟩
    [⟨some "par", some (.items [⟨some "text", none, some "hello"⟩]), none⟩]
    (by
      intro b hb l hl item him
      rw [List.mem_singleton] at hb
      subst hb
      simp only [Option.some.injEq, BlockContent.items.injEq] at hl
      subst hl
      rw [List.mem_singleton] at him
      subst him
      decide)

/-- C8: reconcile only rewrites individual entries of the top-level block
sequence in place by index: the output sequence has the same length, the
element at each index corresponds to the input element at that index (no
reordering), and a block that was not replaced through one of its matched
link items is the unchanged original. -/
theorem C8_frame
    (obj : EditableObject) (doc : List BlockElement) (i : Nat) (b : BlockElement)
    (hget : doc.get? i = some b) :
    (reconcile obj doc).1.length = doc.length ∧
    ∃ b₂, (reconcile obj doc).1.get? i = some b₂ ∧
      (b₂ = b ∨
        ∃ mm parsed l item, obj.media_metadata = some mm ∧ buildParsed mm = .ok parsed ∧
          b.c = some (.items l) ∧ item ∈ l ∧ item.e = some "link" ∧
          processItem parsed item = .ok (some b₂)) := by
  obtain ⟨media⟩ := obj
  cases media with
  | none => exact ⟨rfl, b, hget, Or.inl rfl⟩
  | some mm =>
    cases hbp : buildParsed mm with
    | error er =>
      rw [show reconcile ⟨some mm⟩ doc = (doc, some er) from by simp [reconcile, hbp]]
      exact ⟨rfl, b, hget, Or.inl rfl⟩
    | ok parsed =>
      rw [show reconcile ⟨some mm⟩ doc = traverseDoc parsed doc from by simp [reconcile, hbp]]
      refine ⟨traverseDoc_length parsed doc, ?_⟩
      obtain ⟨b₂, hg, hd⟩ := traverseDoc_get? parsed doc i b hget
      rcases hd with heq | h2
      · exact ⟨b₂, hg, Or.inl heq⟩
      · rcases processBlock_fst parsed b with h1 | ⟨l, hcl, item, hm, he⟩
        · exact ⟨b₂, hg, Or.inl (h2.trans h1)⟩
        · rw [← h2] at he
          exact ⟨b₂, hg, Or.inr ⟨mm, parsed, l, item, rfl, hbp, hcl, hm,
            (processItem_replaced he).1, he⟩⟩

/-- Witness for C8 at a concrete two-block document whose second block is
replaced. -/
theorem C8_witness :
    (reconcile ⟨some [("abc123", ⟨"Image"⟩)]⟩
        [⟨some "img", some (.str "cap"), none⟩,
         ⟨some "par", some (.items [⟨some "link", some "https://i.redd.it/abc123?amp=1",
           some "https://i.redd.it/abc123?amp=1"⟩]), none⟩]).1.length
      = ([⟨some "img", some (.str "cap"), none⟩,
          ⟨some "par", some (.items [⟨some "link", some "https://i.redd.it/abc123?amp=1",
            some "https://i.redd.it/abc123?amp=1"⟩]), none⟩] : List BlockElement).length ∧
    ∃ b₂, (reconcile ⟨some [("abc123", ⟨"Image"⟩)]⟩
        [⟨some "img", some (.str "cap"), none⟩,
         ⟨some "par", some (.items [⟨some "link", some "https://i.redd.it/abc123?amp=1",
           some "https://i.redd.it/abc123?amp=1"⟩]), none⟩]).1.get? 1 = some b₂ ∧
      (b₂ = ⟨some "par", some (.items [⟨some "link", some "https://i.redd.it/abc123?amp=1",
          some "https://i.redd.it/abc123?amp=1"⟩]), none⟩ ∨
        ∃ mm parsed l item,
          (⟨some [("abc123", ⟨"Image"⟩)]⟩ : EditableObject).media_metadata = some mm ∧
          buildParsed mm = .ok parsed ∧
          (⟨some "par", some (.items [⟨some "link", some "https://i.redd.it/abc123?amp=1",
            some "https://i.redd.it/abc123?amp=1"⟩]), none⟩ : BlockElement).c
              = some (.items l) ∧
          item ∈ l ∧ item.e = some "link" ∧
          processItem parsed item = .ok (some b₂)) :=
  C8_frame ⟨some [("abc123", ⟨"Image"⟩)]⟩
    [⟨some "img", some (.str "cap"), none⟩,
     ⟨some "par", some (.items [⟨some "link", some "https://i.redd.it/abc123?amp=1",
       some "https://i.redd.it/abc123?amp=1"⟩]), none⟩]
    1 ⟨some "par", some (.items [⟨some "link", some "https://i.redd.it/abc123?amp=1",
       some "https://i.redd.it/abc123?amp=1"⟩]), none⟩ (by decide)

/-- C9: in the edit operation with preserve-inline-media requested on a
rich-text body, the reconciler runs entirely before the edit-submission
network call: when the reconciler raises, the error propagates out of
edit and no edit-submission step is ever issued. -/
theorem C9_no_submit_on_reconcile_error
    (obj : EditableObject) (hasInlineMedia matchesInlinePattern : Bool)
    (convertedDoc : List BlockElement) (er : RTError)
    (hrich : matchesInlinePattern = true ∨ hasInlineMedia = true)
    (herr : (reconcile obj convertedDoc).2 = some er) :
    (edit obj hasInlineMedia matchesInlinePattern true convertedDoc).2 = some er ∧
    ∀ p, EditStep.submitEdit p ∉
      (edit obj hasInlineMedia matchesInlinePattern true convertedDoc).1 := by
  have hb : (matchesInlinePattern || hasInlineMedia) = true := by
    rcases hrich with h | h <;> simp [h]
  cases hres : reconcile obj convertedDoc with
  | mk doc₂ errOpt =>
    rw [hres] at herr
    simp only at herr
    subst herr
    constructor
    · simp [edit, hb, hres]
    · intro p hp
      cases hasInlineMedia <;> simp [edit, hb, hres] at hp

/-- Witness for C9: a reconciler schema violation on a converted document
suppresses the edit-submission step. -/
theorem C9_witness :
    (edit ⟨some []⟩ false true true [⟨some "par", some (.str "hello"), none⟩]).2
      = some .schemaViolation ∧
    ∀ p, EditStep.submitEdit p ∉
      (edit ⟨some []⟩ false true true [⟨some "par", some (.str "hello"), none⟩]).1 :=
  C9_no_submit_on_reconcile_error ⟨some []⟩ false true
    [⟨some "par", some (.str "hello"), none⟩] .schemaViolation
    (Or.inl rfl) (by decide)

theorem processItem_no_https {parsed : List (String × String)} {item : InlineItem}
    {url : String} (hlink : item.e = some "link") (hu : item.u = some url)
    (hnh : containsHttps url.data = false) :
    processItem parsed item = .error .indexError := by
  have hut : urlTokens url = none := by
    unfold urlTokens
    rw [afterHttps_of_not_contains hnh]
  simp only [processItem, if_pos hlink, hu, hut]

/-- C10: with the media-metadata attribute present and a non-empty media
map, a document containing a link item whose URL lacks the substring
https:// cannot be reconciled without an exception: the scheme-stripping
step indexes past the end of the split result (or an earlier error is
raised first), rather than the block being left alone. -/
theorem C10_non_https_link_raises
    (mm : List (String × MediaDescr)) (doc : List BlockElement) (i : Nat)
    (b : BlockElement) (l : List InlineItem) (item : InlineItem) (url : String)
    (_hne : ¬mm = [])
    (hget : doc.get? i = some b)
    (hc : b.c = some (.items l))
    (hitem : item ∈ l)
    (hlink : item.e = some "link")
    (hu : item.u = some url)
    (hnh : containsHttps url.data = false) :
    ¬(reconcile ⟨some mm⟩ doc).2 = none := by
  intro hnone
  cases hbp : buildParsed mm with
  | error er =>
    rw [show reconcile ⟨some mm⟩ doc = (doc, some er) from by simp [reconcile, hbp]] at hnone
    exact absurd hnone (by simp)
  | ok parsed =>
    rw [show reconcile ⟨some mm⟩ doc = traverseDoc parsed doc from by simp [reconcile, hbp]]
      at hnone
    have hbmem : b ∈ doc := List.get?_mem hget
    have hclean := traverseDoc_snd_none parsed doc hnone b hbmem
    rw [processBlock_items parsed hc] at hclean
    obtain ⟨o, ho⟩ := processItems_ok_items parsed l b hclean item hitem
    rw [processItem_no_https hlink hu hnh] at ho
    exact absurd ho (by simp)

/-- Witness for C10 at a concrete ftp link. -/
theorem C10_witness :
    ¬(reconcile ⟨some [("abc123", ⟨"Image"⟩)]⟩
        [⟨some "par", some (.items [⟨some "link", some "ftp://x", some "ftp://x"⟩]), none⟩]).2
      = none :=
  C10_non_https_link_raises [("abc123", ⟨"Image"⟩)]
    [⟨some "par", some (.items [⟨some "link", some "ftp://x", some "ftp://x"⟩]), none⟩]
    0 ⟨some "par", some (.items [⟨some "link", some "ftp://x", some "ftp://x"⟩]), none⟩
    [⟨some "link", some "ftp://x", some "ftp://x"⟩]
    ⟨some "link", some "ftp://x", some "ftp://x"⟩ "ftp://x"
    (by decide) (by decide) (by decide) (by decide) (by decide) (by decide) (by decide)

end Praw
